import Mathlib

/-!
# Verification of the rag-scripts text chunking and reassembly engine

Shallow embedding of the chunking code of the repository `rag-scripts`:

* `src/textsplit/legal_chunker.py` — the boundary-aware splitter
  (`chunk_text_for_rag`, `split_legal_sentences`, `is_heading_line`,
  `is_legal_step_line`, the `BEARING_RE` regex, `ABBREVIATIONS`);
* `src/textsplit/cli.py` — the fixed-window splitter `split_text_minmax`;
* `src/textsplit/merge_cli.py` — the per-group reassembly logic of `main`.

Python `str` values are modelled as `List Char` (a Python string is a
sequence of code points; slicing `s[a:b]` clamps, which `sliceList` mirrors).
Python `int` parameters that the CLI can make negative are modelled as `Int`;
character counts and indices are `Nat`.  The handful of regular expressions
in the source are small and fixed, so each is hand-compiled to a decidable
matcher over `List Char`; character classes (`\s`, `\w`, `\d`, `lower()`)
are modelled at ASCII granularity, which is exact on every input considered
here.
-/

/-- Python `str.isspace()` / regex `\s` for the ASCII range: space, tab,
newline, carriage return, vertical tab, form feed. -/
def pyIsSpace (c : Char) : Bool :=
  c == ' ' || c == '\t' || c == '\n' || c == '\r' || c == '\x0b' || c == '\x0c'

/-- Regex `\w` (word character) for the ASCII range: letters, digits, underscore. -/
def isWordCh (c : Char) : Bool := c.isAlphanum || c == '_'

/-- Python `str.lower()` applied characterwise (ASCII). -/
def pyLower (l : List Char) : List Char := l.map Char.toLower

/-- Python slicing `l[a:b]` with automatic clamping of both ends. -/
def sliceList (l : List Char) (a b : Nat) : List Char := (l.take b).drop a

/-- `l[i] == c` for an in-range index, `false` out of range. -/
def charIs (l : List Char) (i : Nat) (c : Char) : Bool := l[i]? == some c

/-- Python `p.endswith(suf)`. -/
def listEndsWith (p suf : List Char) : Bool :=
  suf.length ≤ p.length && p.drop (p.length - suf.length) == suf

/-- Python `s.strip()`: remove leading and trailing whitespace. -/
def pyStrip (l : List Char) : List Char :=
  ((l.dropWhile pyIsSpace).reverse.dropWhile pyIsSpace).reverse

/-- Drop a leading (possibly empty) run of whitespace: regex `\s*`. -/
def dropWS (l : List Char) : List Char := l.dropWhile pyIsSpace

/-- Length of the leading run of ASCII digits: used for `\d{..}` pieces. -/
def countDigits (l : List Char) : Nat := (l.takeWhile Char.isDigit).length

/-- Regex `\b` read at a gap: the next character is absent or a non-word
character (used after a group that necessarily ends in a word character). -/
def wordBdry (l : List Char) : Bool :=
  match l with
  | [] => true
  | c :: _ => !isWordCh c

/-- String literal to character list. -/
def strL (s : String) : List Char := s.toList

/-- `ABBREVIATIONS` of `legal_chunker.py` (lines 32–35), in source order. -/
def ABBREVIATIONS : List (List Char) :=
  [strL "co.", strL "inc.", strL "ltd.", strL "no.", strL "sec.", strL "t.",
   strL "r.", strL "nw.", strL "ne.", strL "sw.", strL "se.",
   strL "ft.", strL "in.", strL "deg.", strL "min.", strL "sec.", strL "rd.",
   strL "ave.", strL "st.", strL "blvd.", strL "dr.", strL "hwy."]

/-- Regex class `[NS]` under `re.IGNORECASE` (`BEARING_RE`). -/
def isNS (c : Char) : Bool := c == 'N' || c == 'S' || c == 'n' || c == 's'

/-- Regex class `[EW]` under `re.IGNORECASE` (`BEARING_RE`). -/
def isEW (c : Char) : Bool := c == 'E' || c == 'W' || c == 'e' || c == 'w'

/-- Tail of `BEARING_RE`: `\s*([EW])\b` from the current point. -/
def bearingFinal (l : List Char) : Bool :=
  match dropWS l with
  | [] => false
  | c :: rest => isEW c && wordBdry rest

/-- Optional seconds group of `BEARING_RE`: `(?:['′]\s*\d{1,2}(?:["″])?)?`
followed by `\s*([EW])\b`.  When the next character is `'`/`′` the group is
forced (skipping it cannot lead to a match, since `'`/`′` matches neither
`\s` nor `[EW]`); the quantifier choices are forced by disjointness of the
adjacent character classes, so this deterministic matcher decides existence
of a match exactly. -/
def bearingSeconds (l : List Char) : Bool :=
  match l with
  | c :: rest =>
    if c == '\'' || c == '′' then
      let r := dropWS rest
      let k := countDigits r
      if 1 ≤ k && k ≤ 2 then
        let r2 := r.drop k
        let r3 := match r2 with
                  | d :: tl => if d == '"' || d == '″' then tl else r2
                  | [] => r2
        bearingFinal r3
      else false
    else bearingFinal l
  | [] => false

/-- Middle of `BEARING_RE` after the degree digits: `[°\s]\s*\d{1,2}` then
the seconds group. -/
def bearingFromDeg (l : List Char) : Bool :=
  match l with
  | c :: rest =>
    if c == '°' || pyIsSpace c then
      let r := dropWS rest
      let k := countDigits r
      if 1 ≤ k && k ≤ 2 then bearingSeconds (r.drop k) else false
    else false
  | [] => false

/-- `BEARING_RE` continuation after the `[NS]` letter: `\s*\d{1,3}` then the
rest of the pattern. -/
def bearingAfterNS (l : List Char) : Bool :=
  let r := dropWS l
  let k := countDigits r
  if 1 ≤ k && k ≤ 3 then bearingFromDeg (r.drop k) else false

/-- Scan for `BEARING_RE.search`: tries every position, requiring the word
boundary `\b` before the `[NS]` letter (previous character absent or
non-word). -/
def bearingSearchAux : Option Char → List Char → Bool
  | _, [] => false
  | prev, c :: rest =>
    (isNS c &&
       (match prev with | none => true | some p => !isWordCh p) &&
       bearingAfterNS rest)
    || bearingSearchAux (some c) rest

/-- `BEARING_RE.search(s) is not None` for
`r"\b([NS])\s*\d{1,3}[°\s]\s*\d{1,2}(?:['′]\s*\d{1,2}(?:[\"″])?)?\s*([EW])\b"`
with `re.IGNORECASE` (`legal_chunker.py` lines 26–29). -/
def bearingSearch (l : List Char) : Bool := bearingSearchAux none l

/-- Unit alternatives of the distance regex in `is_legal_step_line`
(`legal_chunker.py` line 59), lowercased for the `re.IGNORECASE` comparison. -/
def distanceUnits : List (List Char) :=
  [strL "feet", strL "foot", strL "ft", strL "meters", strL "meter", strL "m"]

/-- `(feet|foot|ft|meters|meter|m)\b`, case-insensitively, at the head of `l`. -/
def matchUnit (l : List Char) : Bool :=
  distanceUnits.any (fun u =>
    pyLower (l.take u.length) == u && wordBdry (l.drop u.length))

/-- Continuation of the distance regex after the integer digits:
`(?:\.\d+)?\s*(feet|foot|ft|meters|meter|m)\b`.  A `.` at the head forces the
fraction group (a `.` can start neither `\s*` nor a unit word). -/
def distanceAfterDigits (l : List Char) : Bool :=
  match l with
  | '.' :: rest =>
    let k := countDigits rest
    if 1 ≤ k then matchUnit (dropWS (rest.drop k)) else false
  | _ => matchUnit (dropWS l)

/-- Scan for `re.search(r"\b\d+(?:\.\d+)?\s*(feet|foot|ft|meters|meter|m)\b", s,
re.IGNORECASE)` (`legal_chunker.py` line 59): at each position with a word
boundary before a digit, consume the maximal digit run and match the rest. -/
def distanceSearchAux : Option Char → List Char → Bool
  | _, [] => false
  | prev, c :: rest =>
    (c.isDigit &&
       (match prev with | none => true | some p => !isWordCh p) &&
       distanceAfterDigits ((c :: rest).drop (countDigits (c :: rest))))
    || distanceSearchAux (some c) rest

/-- The distance-plus-unit search of `is_legal_step_line`. -/
def distanceSearch (l : List Char) : Bool := distanceSearchAux none l

/-- Literal-prefix combinator for the heading regexes: consume the exact
(case-sensitive) word `w` or fail. -/
def litP (w l : List Char) : Option (List Char) :=
  if l.take w.length == w then some (l.drop w.length) else none

/-- Regex `\s+`: at least one whitespace character, maximal munch (every
following piece in the heading patterns starts with a non-whitespace class). -/
def wsPlus (l : List Char) : Option (List Char) :=
  match l with
  | c :: r => if pyIsSpace c then some (dropWS r) else none
  | [] => none

/-- Regex class `[A-Z0-9]`. -/
def isUpperDigit (c : Char) : Bool := ('A' ≤ c && c ≤ 'Z') || c.isDigit

/-- Regex class `[A-Z]`. -/
def isUpperAZ (c : Char) : Bool := 'A' ≤ c && c ≤ 'Z'

/-- `LEGAL_HEADING_PATTERNS[0]`: `^\s*(EXHIBIT\s+[A-Z0-9]+)\s*$`. -/
def patExhibit (s : List Char) : Bool :=
  match litP (strL "EXHIBIT") (dropWS s) with
  | none => false
  | some r =>
    match wsPlus r with
    | none => false
    | some r2 =>
      let k := (r2.takeWhile isUpperDigit).length
      1 ≤ k && (r2.drop k).all pyIsSpace

/-- `LEGAL_HEADING_PATTERNS[1]`: `^\s*(LEGAL\s+DESCRIPTION)\s*$`. -/
def patLegalDescr (s : List Char) : Bool :=
  match litP (strL "LEGAL") (dropWS s) with
  | none => false
  | some r =>
    match wsPlus r with
    | none => false
    | some r2 =>
      match litP (strL "DESCRIPTION") r2 with
      | none => false
      | some r3 => r3.all pyIsSpace

/-- `LEGAL_HEADING_PATTERNS[2]`: `^\s*(DESCRIPTION)\s*$`. -/
def patDescr (s : List Char) : Bool :=
  match litP (strL "DESCRIPTION") (dropWS s) with
  | none => false
  | some r => r.all pyIsSpace

/-- `LEGAL_HEADING_PATTERNS[3]`: `^\s*(PARCEL\s+\d+|PARCEL\s+[A-Z])\b`. -/
def patParcel (s : List Char) : Bool :=
  match litP (strL "PARCEL") (dropWS s) with
  | none => false
  | some r =>
    match wsPlus r with
    | none => false
    | some r2 =>
      (let k := countDigits r2
       1 ≤ k && wordBdry (r2.drop k)) ||
      (match r2 with
       | c :: rest => isUpperAZ c && wordBdry rest
       | [] => false)

/-- `LEGAL_HEADING_PATTERNS[4]`: `^\s*(LOT\s+\d+[A-Z]?)\b`.  The optional
`[A-Z]` is forced when an upper-case letter follows the digits (skipping it
would leave a word character at the `\b`). -/
def patLot (s : List Char) : Bool :=
  match litP (strL "LOT") (dropWS s) with
  | none => false
  | some r =>
    match wsPlus r with
    | none => false
    | some r2 =>
      let k := countDigits r2
      1 ≤ k &&
      (match r2.drop k with
       | c :: rest => if isUpperAZ c then wordBdry rest else !isWordCh c
       | [] => true)

/-- `LEGAL_HEADING_PATTERNS[5]`: `^\s*(TRACT\s+\w+)\b` (after a maximal `\w+`
run the word boundary is automatic). -/
def patTract (s : List Char) : Bool :=
  match litP (strL "TRACT") (dropWS s) with
  | none => false
  | some r =>
    match wsPlus r with
    | none => false
    | some r2 => 1 ≤ (r2.takeWhile isWordCh).length

/-- `LEGAL_HEADING_PATTERNS[6]`: `^\s*(SECTION\s+\d+)\b`. -/
def patSectionNum (s : List Char) : Bool :=
  match litP (strL "SECTION") (dropWS s) with
  | none => false
  | some r =>
    match wsPlus r with
    | none => false
    | some r2 =>
      let k := countDigits r2
      1 ≤ k && wordBdry (r2.drop k)

/-- The `T\.?\s*\d+[NS]?` / `R\.?\s*\d+[EW]?` shape shared by the last two
heading patterns: a letter, optional period, `\s*`, digits, an optional
(case-sensitive) class letter, then `\b`. -/
def patTR (ltr : Char) (cls : Char → Bool) (s : List Char) : Bool :=
  match s with
  | c :: r =>
    c == ltr &&
    (let r1 := match r with
               | '.' :: r' => r'
               | _ => r
     let r2 := dropWS r1
     let k := countDigits r2
     1 ≤ k &&
     (match r2.drop k with
      | c2 :: rest => if cls c2 then wordBdry rest else !isWordCh c2
      | [] => true))
  | [] => false

/-- `LEGAL_HEADING_PATTERNS[7]`: `^\s*(TOWNSHIP\s+\w+|T\.?\s*\d+[NS]?)\b`. -/
def patTownship (s : List Char) : Bool :=
  (match litP (strL "TOWNSHIP") (dropWS s) with
   | none => false
   | some r =>
     match wsPlus r with
     | none => false
     | some r2 => 1 ≤ (r2.takeWhile isWordCh).length) ||
  patTR 'T' (fun c => c == 'N' || c == 'S') (dropWS s)

/-- `LEGAL_HEADING_PATTERNS[8]`: `^\s*(RANGE\s+\w+|R\.?\s*\d+[EW]?)\b`. -/
def patRange (s : List Char) : Bool :=
  (match litP (strL "RANGE") (dropWS s) with
   | none => false
   | some r =>
     match wsPlus r with
     | none => false
     | some r2 => 1 ≤ (r2.takeWhile isWordCh).length) ||
  patTR 'R' (fun c => c == 'E' || c == 'W') (dropWS s)

/-- Python `str.isupper()` (ASCII model): at least one cased character and
no lower-case cased character. -/
def pyIsUpper (l : List Char) : Bool :=
  l.any Char.isAlpha && l.all (fun c => !c.isAlpha || c.isUpper)

/-- `is_heading_line` (`legal_chunker.py` lines 38–47): the stripped line is
non-empty and either entirely upper-case with length ≤ 80, or matches one of
the nine `LEGAL_HEADING_PATTERNS`. -/
def is_heading_line (line : List Char) : Bool :=
  let text := pyStrip line
  if text.isEmpty then false
  else
    (pyIsUpper text && decide (text.length ≤ 80)) ||
    patExhibit text || patLegalDescr text || patDescr text || patParcel text ||
    patLot text || patTract text || patSectionNum text || patTownship text ||
    patRange text

/-- `is_legal_step_line` (`legal_chunker.py` lines 50–61): the stripped line
is non-empty and starts with an enumeration cue word (case-insensitive), or
contains a bearing, or contains a distance followed by a unit. -/
def is_legal_step_line (line : List Char) : Bool :=
  let s := pyStrip line
  if s.isEmpty then false
  else
    (let low := pyLower s
     (low.take 6 == strL "thence") || (low.take 4 == strL "then") ||
     (low.take 9 == strL "beginning") || (low.take 10 == strL "commencing")) ||
    bearingSearch s || distanceSearch s

/-- Paragraph-boundary breakpoints of `chunk_text_for_rag` (lines 272–274):
`m.end()` of each (maximal, non-overlapping) match of `re.finditer(r"\n{2,}")`
— those `b` preceded by at least two newlines with no newline at `b`. -/
def nlRunEnd (text : List Char) (b : Nat) : Bool :=
  decide (2 ≤ b) && charIs text (b-1) '\n' && charIs text (b-2) '\n' &&
  !(charIs text b '\n')

/-- The raw line beginning at offset `b` as used in lines 277–281: the text
up to (excluding) the next newline, i.e. the `_line_iter` line after
`rstrip("\n")`. -/
def lineAt (text : List Char) (b : Nat) : List Char :=
  (text.drop b).takeWhile (fun c => c != '\n')

/-- Heading/step line-start breakpoints of `chunk_text_for_rag` (lines
276–281): `_line_iter` yields line starts `0`, every position after a
newline, and `text.length`; of these only `0 < b < n` with
`text[b-1] = '\n'` can be added, and only when the line classifies as a
heading or a legal step. -/
def lineStartBreak (text : List Char) (b : Nat) : Bool :=
  decide (0 < b) && decide (b < text.length) && charIs text (b-1) '\n' &&
  (is_heading_line (lineAt text b) || is_legal_step_line (lineAt text b))

/-- The abbreviation guard of lines 286–289 at punctuation position `i`:
`text[max(0, i-8):i].lower()` ends with some entry of `ABBREVIATIONS`. -/
def abbrevGuard (text : List Char) (i : Nat) : Bool :=
  ABBREVIATIONS.any (fun a => listEndsWith (pyLower (sliceList text (i-8) i)) a)

/-- The bearing-proximity guard of lines 290–293 at punctuation position `i`:
`BEARING_RE` matches somewhere in `text[max(0,i-30):i+1] + text[i+1:i+12]`. -/
def bearingGuard (text : List Char) (i : Nat) : Bool :=
  bearingSearch (sliceList text (i-30) (i+1) ++ sliceList text (i+1) (i+12))

/-- Punctuation breakpoints of `chunk_text_for_rag` (lines 283–296): `b = i+1`
for every `;`/`.`/`:` at position `i` that passes both guards. -/
def punctBreak (text : List Char) (b : Nat) : Bool :=
  decide (1 ≤ b) &&
  (charIs text (b-1) ';' || charIs text (b-1) '.' || charIs text (b-1) ':') &&
  !abbrevGuard text (b-1) && !bearingGuard text (b-1)

/-- Membership in the breakpoint set `breaks` built by `chunk_text_for_rag`
(lines 269–296): `{0, n}`, paragraph ends, heading/step line starts, and
guarded punctuation offsets. -/
def isBreakpoint (text : List Char) (b : Nat) : Bool :=
  decide (b = 0) || decide (b = text.length) || nlRunEnd text b ||
  lineStartBreak text b || punctBreak text b

/-- `sorted_breaks = sorted(breaks)` (line 298): the breakpoint set listed in
increasing order (every member is at most `text.length`). -/
def breaksList (text : List Char) : List Nat :=
  (List.range (text.length + 1)).filter (isBreakpoint text)

/-- Python `max(l)` for a possibly-empty list (`none` when empty). -/
def listMax : List Nat → Option Nat
  | [] => none
  | x :: xs => some (match listMax xs with
                     | none => x
                     | some m => max x m)

/-- Python `min(l)` for a possibly-empty list (`none` when empty). -/
def listMin : List Nat → Option Nat
  | [] => none
  | x :: xs => some (match listMin xs with
                     | none => x
                     | some m => min x m)

/-- `next_boundary` of `chunk_text_for_rag` (lines 301–315): the largest
breakpoint in `[i+min_chars, min(i+target_chars, n)]` if any, else the
smallest in `(min(i+target_chars, n), min(i+max_chars, n)]`, else the hard
cut `min(i+max_chars, n)`. -/
def next_boundary (bs : List Nat) (n mn tg mx i : Nat) : Nat :=
  let jmin := i + mn
  let jtgt := min (i + tg) n
  let jmax := min (i + mx) n
  match listMax (bs.filter (fun b => decide (jmin ≤ b) && decide (b ≤ jtgt))) with
  | some b => b
  | none =>
    match listMin (bs.filter (fun b => decide (jtgt < b) && decide (b ≤ jmax))) with
    | some b => b
    | none => jmax

/-- The `while i < n` loop of `chunk_text_for_rag` (lines 317–332) with an
explicit fuel.  Each iteration either stops or recurses with the new cursor
`i = max(0, j - overlap_chars)` (natural subtraction); the stop conditions
`j >= n` and `i >= j` are those of lines 325 and 330.  The Python loop runs
at most `n` iterations whenever it terminates with the cursor strictly
increasing (in particular for `overlap_chars < min_chars` or
`overlap_chars = 0`), so fuel `n + 1` is sufficient there. -/
def chunkLoop (text : List Char) (bs : List Nat) (mn tg mx ov : Nat) :
    Nat → Nat → List (List Char)
  | 0, _ => []
  | fuel+1, i =>
    let n := text.length
    if i < n then
      let j0 := next_boundary bs n mn tg mx i
      let j := if j0 ≤ i then min (i + mx) n else j0
      let seg := sliceList text i j
      if n ≤ j then [seg]
      else
        let i' := j - ov
        if j ≤ i' then [seg]
        else seg :: chunkLoop text bs mn tg mx ov fuel i'
    else []

/-- `chunk_text_for_rag` (`legal_chunker.py` lines 256–332).  The parameter
`by_section` appears in the Python signature (with default `True`) but is
never read in the function body, which is mirrored here. -/
def chunk_text_for_rag (text : List Char) (mn tg mx ov : Nat)
    (by_section : Bool) : List (List Char) :=
  if text.isEmpty then []
  else chunkLoop text (breaksList text) mn tg mx ov (text.length + 1) 0

/-- The `while j < L and text[j].isspace(): j += 1` scan of
`split_legal_sentences` (lines 148–150). -/
def skipSpaces (text : List Char) (j : Nat) : Nat :=
  j + ((text.drop j).takeWhile pyIsSpace).length

/-- The span-collecting loop of `split_legal_sentences` (lines 126–156) with
explicit fuel; the cursor `i` advances by at least one per iteration, so fuel
`text.length + 1` always suffices, and the fuel-exhausted case coincides with
the post-loop `if start < L` append. -/
def sentLoop (text : List Char) : Nat → Nat → Nat → List (Nat × Nat)
  | 0, start, _ =>
    if start < text.length then [(start, text.length)] else []
  | fuel+1, start, i =>
    if i < text.length then
      let c := text.getD i ' '
      if c == ';' || c == '.' || c == ':' then
        if abbrevGuard text i then sentLoop text fuel start (i+1)
        else if bearingGuard text i then sentLoop text fuel start (i+1)
        else
          let e := i + 1
          let j := skipSpaces text e
          (start, e) :: sentLoop text fuel j j
      else sentLoop text fuel start (i+1)
    else if start < text.length then [(start, text.length)] else []

/-- `split_legal_sentences` (`legal_chunker.py` lines 123–158): cut after
`;`/`.`/`:` unless the abbreviation or bearing guard fires, skip following
whitespace, then strip each span and drop empty pieces.  The two guards are
literally the same expressions as in `chunk_text_for_rag`'s punctuation scan
(`prev = text[max(0, i-8):i].lower()` etc.), shared here through
`abbrevGuard`/`bearingGuard`. -/
def split_legal_sentences (text : List Char) : List (List Char) :=
  let spans := sentLoop text (text.length + 1) 0 0
  (spans.map (fun ab => pyStrip (sliceList text ab.1 ab.2))).filter
    (fun p => !p.isEmpty)

/-- Python `text.split("\n\n")` (`cli.py` line 26): cut at each
non-overlapping occurrence of the two-newline separator, scanning left to
right.  `acc` holds the reversed characters of the piece being built. -/
def splitNN : List Char → List Char → List (List Char)
  | [], acc => [acc.reverse]
  | [c], acc => [(c :: acc).reverse]
  | c1 :: c2 :: rest, acc =>
    if c1 = '\n' ∧ c2 = '\n' then acc.reverse :: splitNN rest []
    else splitNN (c2 :: rest) (c1 :: acc)

/-- Python `para.split("\n")` (`cli.py` line 37). -/
def splitNL : List Char → List Char → List (List Char)
  | [], acc => [acc.reverse]
  | c :: rest, acc =>
    if c = '\n' then acc.reverse :: splitNL rest []
    else splitNL rest (c :: acc)

/-- The two-newline separator. -/
def nn : List Char := ['\n', '\n']

/-- The hard-cut loop of `split_text_minmax` (`cli.py` lines 61–73): cut `s`
at `max_chars` boundaries, widening a piece that would stay under `min_chars`
(and not reach the end) up to `min_chars`.  Fuel-indexed; each iteration
advances `start` by at least one whenever `0 < mx` (the only way the function
is reached, thanks to the degenerate guard), so fuel `s.length` suffices. -/
def hardCutAux (s : List Char) (mn mx : Nat) : Nat → Nat → List (List Char)
  | 0, _ => []
  | fuel+1, start =>
    let L := s.length
    if start < L then
      let e1 := min (start + mx) L
      let piece := sliceList s start e1
      let e2 := if piece.length < mn && e1 < L
                then min (start + max piece.length mn) L else e1
      sliceList s start e2 :: hardCutAux s mn mx fuel e2
    else []

/-- The line-accumulation loop of the oversized-paragraph path of
`split_text_minmax` (`cli.py` lines 37–78).  State: the chunks appended so
far by this paragraph (the Python appends them to the global `chunks`) and
the pending `acc` parts; `acc_len` is the length of `"".join(acc)`, which the
Python tracks incrementally. -/
def bigLoop (mn mx : Nat) (lines : List (List Char)) :
    List (List Char) × List (List Char) :=
  lines.foldl
    (fun (st : List (List Char) × List (List Char)) line =>
      let chs := st.1
      let acc := st.2
      let piece := (if acc.isEmpty then [] else ['\n']) ++ line
      let ps := piece.length
      let accLen := acc.flatten.length
      if accLen + ps ≤ mx then (chs, acc ++ [piece])
      else if accLen < mn then (chs ++ [(acc ++ [piece]).flatten], [])
      else
        let chs1 := chs ++ (if acc.isEmpty then [] else [acc.flatten])
        if mx < ps then
          (chs1 ++ hardCutAux piece mn mx (piece.length + 1) 0, [])
        else (chs1, [line]))
    ([], [])

/-- Pop the last chunk and merge `x` into it with separator `sep`
(`prev = chunks.pop(); chunks.append(prev + sep + x)`); when there is no
previous chunk the Python guards (`and chunks`) route to a plain append. -/
def mergeIntoLast (chs : List (List Char)) (sep x : List Char) :
    List (List Char) :=
  match chs.getLast? with
  | some prev => chs.dropLast ++ [prev ++ sep ++ x]
  | none => chs ++ [x]

/-- One step of the paragraph loop of `split_text_minmax` (`cli.py` lines
27–104).  State: `(chunks, current_parts)`; `current_len` is the length of
`"".join(current_parts)`, which the Python tracks incrementally. -/
def smmStep (mn mx : Nat) (st : List (List Char) × List (List Char))
    (para : List Char) : List (List Char) × List (List Char) :=
  let chunks := st.1
  let parts := st.2
  let sep : List Char := if parts.isEmpty then [] else nn
  let extra := sep.length
  let curLen := parts.flatten.length
  if mx < para.length + extra then
    -- lines 32–87: oversized-paragraph path
    let flushed := mn ≤ curLen && !parts.isEmpty
    let chunks1 := if flushed then chunks ++ [parts.flatten] else chunks
    let parts1 := if flushed then ([] : List (List Char)) else parts
    let big := bigLoop mn mx (splitNL para [])
    let chunks2 := chunks1 ++ big.1
    let acc := big.2
    if acc.isEmpty then (chunks2, parts1)
    else
      let accJ := acc.flatten
      if accJ.length < mn then (mergeIntoLast chunks2 ['\n'] accJ, parts1)
      else (chunks2 ++ [accJ], parts1)
  else
    -- lines 89–104: normal path
    let cand := curLen + extra + para.length
    if cand ≤ mx then (chunks, parts ++ [sep ++ para])
    else if curLen < mn then (chunks ++ [(parts ++ [sep ++ para]).flatten], [])
    else
      (chunks ++ (if parts.isEmpty then [] else [parts.flatten]), [para])

/-- The trailing flush of `split_text_minmax` (`cli.py` lines 106–113): a
non-empty remainder below `min_chars` is merged into the previous chunk with
a `"\n\n"` separator when one exists. -/
def smmFinal (mn : Nat) (st : List (List Char) × List (List Char)) :
    List (List Char) :=
  let chunks := st.1
  let parts := st.2
  if parts.isEmpty then chunks
  else
    let last := parts.flatten
    if last.length < mn then mergeIntoLast chunks nn last
    else chunks ++ [last]

/-- The body of `split_text_minmax` after parameter normalization, over `Nat`
thresholds (both at least 1 at every call site, thanks to the guard). -/
def smmCore (text : List Char) (mn mx : Nat) : List (List Char) :=
  smmFinal mn ((splitNN text []).foldl (smmStep mn mx) ([], []))

/-- `split_text_minmax` (`cli.py` lines 7–114): degenerate guard for
non-positive thresholds, defensive swap when `min_chars > max_chars`, then
the paragraph loop. -/
def split_text_minmax (text : List Char) (min_chars max_chars : Int) :
    List (List Char) :=
  if min_chars ≤ 0 ∨ max_chars ≤ 0 then [text]
  else
    let p := if max_chars < min_chars then (max_chars, min_chars)
             else (min_chars, max_chars)
    smmCore text p.1.toNat p.2.toNat

/-- A reassembly group entry `(idx, total, content)` as collected by
`merge_cli.main` (lines 44–54): the parsed `_split_<idx>_of_<total>.txt`
indices plus the file's text. -/
abbrev SegEntry := Nat × Nat × List Char

/-- `pieces[-1].endswith("\n")` (`merge_cli.py` line 90). -/
def lastPieceEndsNl (pieces : List (List Char)) : Bool :=
  match pieces.getLast? with
  | some p => match p.getLast? with
              | some c => c == '\n'
              | none => false
  | none => false

/-- The piece-building loop of `merge_cli.main` (lines 86–94): walk the
sorted entries, optionally inserting a `"\n"` before a piece when
`ensure_newline_between` is set and the previous piece does not end with a
newline. -/
def buildPieces (sorted : List SegEntry) (ensureNl : Bool) :
    List (List Char) :=
  sorted.foldl
    (fun pieces e =>
      let pieces := if ensureNl && !pieces.isEmpty && !lastPieceEndsNl pieces
                    then pieces ++ [['\n']] else pieces
      pieces ++ [e.2.2])
    []

/-- The per-group body of `merge_cli.main` (lines 68–97): sort by index,
reject groups whose members do not all declare the same total (warning,
no output — modelled as `none`), skip incomplete groups unless
`allow_partial`, otherwise concatenate the pieces.  `totals` is the Python
set `{t for _, t, _ in entries}` (its size is the number of distinct totals)
and `total = totals.pop()` is its sole element when the size is 1. -/
def mergeGroup (entries : List SegEntry) (allowPartial ensureNl : Bool) :
    Option (List Char) :=
  let sorted := List.insertionSort (fun a b : SegEntry => a.1 ≤ b.1) entries
  let totals := (entries.map (fun e => e.2.1)).dedup
  if totals.length ≠ 1 then none
  else
    let total := totals.headD 0
    let present := entries.map (fun e => e.1)
    let missing := (List.range' 1 total).filter (fun i => !present.contains i)
    if !missing.isEmpty && !allowPartial then none
    else some (buildPieces sorted ensureNl).flatten

/-- The group loop of `merge_cli.main` (lines 68–97) over all collected
groups, keyed by `(parent_directory, base)`: each group is processed
independently; a rejected or skipped group contributes no output file. -/
def processGroups (gs : List ((List Char × List Char) × List SegEntry))
    (allowPartial ensureNl : Bool) :
    List ((List Char × List Char) × List Char) :=
  gs.filterMap (fun g =>
    (mergeGroup g.2 allowPartial ensureNl).map (fun m => (g.1, m)))

/-- Concatenation of paragraph-level groups with the `"\n\n"` separator:
`"\n\n".join(...)`, used to state order preservation of `split_text_minmax`. -/
def joinParas : List (List Char) → List Char
  | [] => []
  | [x] => x
  | x :: y :: rest => x ++ nn ++ joinParas (y :: rest)

/-- The paragraph-group content of a `(chunks, current_parts)` state of
`split_text_minmax`: the flushed chunks followed by the pending buffer (if
any), used to state order preservation. -/
def stContent (st : List (List Char) × List (List Char)) : List (List Char) :=
  st.1 ++ (if st.2.isEmpty then [] else [st.2.flatten])

theorem listMax_mem : ∀ {l : List Nat} {m : Nat}, listMax l = some m → m ∈ l
  | [], m => by simp [listMax]
  | x :: xs, m => by
    intro h
    simp only [listMax] at h
    match hx : listMax xs with
    | none =>
      rw [hx] at h
      simp at h
      simp [h]
    | some m' =>
      rw [hx] at h
      simp at h
      rcases max_choice x m' with hc | hc
      · rw [hc] at h; simp [h]
      · rw [hc] at h
        exact List.mem_cons_of_mem _ (h ▸ listMax_mem hx)

theorem listMin_mem : ∀ {l : List Nat} {m : Nat}, listMin l = some m → m ∈ l
  | [], m => by simp [listMin]
  | x :: xs, m => by
    intro h
    simp only [listMin] at h
    match hx : listMin xs with
    | none =>
      rw [hx] at h
      simp at h
      simp [h]
    | some m' =>
      rw [hx] at h
      simp at h
      rcases min_choice x m' with hc | hc
      · rw [hc] at h; simp [h]
      · rw [hc] at h
        exact List.mem_cons_of_mem _ (h ▸ listMin_mem hx)

theorem breaksList_le {text : List Char} {b : Nat} (h : b ∈ breaksList text) :
    b ≤ text.length := by
  have h2 := List.mem_of_mem_filter h
  have := List.mem_range.mp h2
  omega

theorem sliceList_length_le (l : List Char) (a b : Nat) :
    (sliceList l a b).length ≤ b - a := by
  simp only [sliceList, List.length_drop, List.length_take]
  omega

/-- Claim C6: the `by_section` parameter of `chunk_text_for_rag` appears in
the signature (the CLI passes `by_section=not args.no_section` and documents
`--no-section` as disabling section-aware splitting) but is never read in
the function body, so the two calls return identical segment sequences for
every input — no input and parameter choice can distinguish them, refuting
the claimed toggle. -/
theorem c6_by_section_has_no_effect (text : List Char) (mn tg mx ov : Nat) :
    chunk_text_for_rag text mn tg mx ov true =
      chunk_text_for_rag text mn tg mx ov false := rfl

/-- Claim C1: evaluating `chunk_text_for_rag` at the failing input
`"ab.cd"` with `min_chars = 1`, `target_chars = 3`, `max_chars = 3`,
`overlap_chars = 0` (so `0 < min ≤ target ≤ max`): the first boundary is the
punctuation breakpoint 3, the advance sets `i = max(0, 3 - 0) = 3`, and the
loop guard `if i >= j: break` fires, so the function returns only
`["ab."]` and the concatenation of the segments is not the original text. -/
theorem c1_no_overlap_round_trip_fails :
    chunk_text_for_rag (strL "ab.cd") 1 3 3 0 true = [strL "ab."] ∧
    (chunk_text_for_rag (strL "ab.cd") 1 3 3 0 true).flatten ≠ strL "ab.cd" := by
  decide

/-- Claim C2: evaluating at the failing input `"no. 5"` with `p = 3` (the
offset just after the `.`).  The 8 characters preceding `p`, case-folded,
are `"no."`, which ends with the abbreviation `no.` — yet `3` is in the
breakpoint set built by `chunk_text_for_rag`, and `split_legal_sentences`
ends the piece `"no."` exactly at offset 3.  Both scans test
`text[max(0, i-8):i]` — the window before the punctuation character itself —
so a window that triggers the guard must contain a second, earlier `.`;
the guard can never fire at an abbreviation's own period. -/
theorem c2_abbreviation_guard_misses_own_period :
    listEndsWith (pyLower (sliceList (strL "no. 5") 0 3)) (strL "no.") = true ∧
    breaksList (strL "no. 5") = [0, 3, 5] ∧
    split_legal_sentences (strL "no. 5") = [strL "no.", strL "5"] := by
  decide

/-- Claim C10: `split_text_minmax` normalizes malformed parameters instead of
failing: a non-positive threshold returns `[text]` unchanged, and
`min_chars > max_chars > 0` gives the same result as the swapped call. -/
theorem c10_parameter_normalization :
    (∀ (text : List Char) (mn mx : Int), mn ≤ 0 ∨ mx ≤ 0 →
      split_text_minmax text mn mx = [text]) ∧
    (∀ (text : List Char) (mn mx : Int), 0 < mx → mx < mn →
      split_text_minmax text mn mx = split_text_minmax text mx mn) := by
  constructor
  · intro text mn mx h
    simp only [split_text_minmax, if_pos h]
  · intro text mn mx h1 h2
    have g1 : ¬(mn ≤ 0 ∨ mx ≤ 0) := by omega
    have g2 : ¬(mx ≤ 0 ∨ mn ≤ 0) := by omega
    simp only [split_text_minmax, if_neg g1, if_neg g2, if_pos h2,
      if_neg (by omega : ¬ mn < mx)]

/-- Witness for C10 at concrete inputs. -/
theorem c10_parameter_normalization_witness :
    split_text_minmax (strL "abc") (-1) 5 = [strL "abc"] ∧
    split_text_minmax (strL "abc") 7 3 = split_text_minmax (strL "abc") 3 7 :=
  ⟨c10_parameter_normalization.1 _ _ _ (by decide),
   c10_parameter_normalization.2 _ _ _ (by decide) (by decide)⟩

theorem next_boundary_le {bs : List Nat} {n mn tg mx i : Nat} (h : tg ≤ mx) :
    next_boundary bs n mn tg mx i ≤ i + mx := by
  simp only [next_boundary]
  split
  · next b heq =>
    have hb := List.mem_filter.mp (listMax_mem heq)
    have := hb.2
    simp only [Bool.and_eq_true, decide_eq_true_eq] at this
    omega
  · split
    · next b heq =>
      have hb := List.mem_filter.mp (listMin_mem heq)
      have := hb.2
      simp only [Bool.and_eq_true, decide_eq_true_eq] at this
      omega
    · omega

theorem chunkLoop_length_le {text : List Char} {bs : List Nat}
    {mn tg mx ov : Nat} (h : tg ≤ mx) :
    ∀ (fuel i : Nat) (seg : List Char),
      seg ∈ chunkLoop text bs mn tg mx ov fuel i → seg.length ≤ mx
  | 0, i, seg => by simp [chunkLoop]
  | fuel+1, i, seg => by
    intro hseg
    simp only [chunkLoop] at hseg
    set n := text.length with hn
    set j0 := next_boundary bs n mn tg mx i with hj0
    set j := if j0 ≤ i then min (i + mx) n else j0 with hj
    have hjle : j ≤ i + mx := by
      rw [hj]
      have := @next_boundary_le bs n mn tg mx i h
      rw [← hj0] at this
      split <;> omega
    have hslice : (sliceList text i j).length ≤ mx :=
      le_trans (sliceList_length_le text i j) (by omega)
    by_cases hin : i < n
    · rw [if_pos hin] at hseg
      by_cases hnj : n ≤ j
      · rw [if_pos hnj] at hseg
        simp only [List.mem_singleton] at hseg
        exact hseg ▸ hslice
      · rw [if_neg hnj] at hseg
        by_cases hji : j ≤ j - ov
        · rw [if_pos hji] at hseg
          simp only [List.mem_singleton] at hseg
          exact hseg ▸ hslice
        · rw [if_neg hji] at hseg
          rcases List.mem_cons.mp hseg with h1 | h1
          · exact h1 ▸ hslice
          · exact chunkLoop_length_le h fuel (j - ov) seg h1
    · rw [if_neg hin] at hseg
      simp at hseg

/-- Claim C4: every segment produced by `chunk_text_for_rag` has length at
most `max_chars` — unconditionally, for every overlap; the selected boundary
never exceeds `i + max_chars` in any branch (including the hard-cut
fallback), so the documented oversized-atomic-unit exception is never even
needed for this splitter. -/
theorem c4_segments_within_max (text : List Char) (mn tg mx ov : Nat)
    (bsec : Bool) (h1 : 0 < mn) (h2 : mn ≤ tg) (h3 : tg ≤ mx) :
    (chunk_text_for_rag text mn tg mx ov bsec).all
      (fun seg => decide (seg.length ≤ mx)) = true := by
  rw [List.all_eq_true]
  intro seg hseg
  rw [decide_eq_true_eq]
  unfold chunk_text_for_rag at hseg
  split at hseg
  · simp at hseg
  · exact chunkLoop_length_le h3 _ 0 seg hseg

/-- Witness for C4 at a concrete input producing three segments. -/
theorem c4_segments_within_max_witness :
    (chunk_text_for_rag
        (strL "First sentence. Second sentence here. Third one.")
        10 20 30 5 true).all (fun seg => decide (seg.length ≤ 30)) = true :=
  c4_segments_within_max _ 10 20 30 5 true (by decide) (by decide) (by decide)

/-- Claim C7: `chunk_text_for_rag` on the empty text yields the empty
segment sequence, and under `0 < min_chars ≤ target_chars ≤ max_chars` a
non-empty text shorter than `min_chars` yields exactly one segment equal to
the whole text (every breakpoint is at most `n < min_chars`, so both
preference tiers are empty and the hard-cut fallback returns `n`). -/
theorem c7_degenerate_inputs :
    (∀ (mn tg mx ov : Nat) (bsec : Bool),
        chunk_text_for_rag [] mn tg mx ov bsec = []) ∧
    (∀ (text : List Char) (mn tg mx ov : Nat) (bsec : Bool),
        0 < mn → mn ≤ tg → tg ≤ mx →
        0 < text.length → text.length < mn →
        chunk_text_for_rag text mn tg mx ov bsec = [text]) := by
  refine ⟨fun mn tg mx ov bsec => rfl, ?_⟩
  intro text mn tg mx ov bsec h1 h2 h3 h4 h5
  have hnb : next_boundary (breaksList text) text.length mn tg mx 0 =
      text.length := by
    simp only [next_boundary]
    have e1 : (breaksList text).filter
        (fun b => decide (0 + mn ≤ b) &&
          decide (b ≤ min (0 + tg) text.length)) = [] := by
      rw [List.filter_eq_nil_iff]
      intro b hb
      have := breaksList_le hb
      simp only [Bool.and_eq_true, decide_eq_true_eq, not_and]
      omega
    have e2 : (breaksList text).filter
        (fun b => decide (min (0 + tg) text.length < b) &&
          decide (b ≤ min (0 + mx) text.length)) = [] := by
      rw [List.filter_eq_nil_iff]
      intro b hb
      have := breaksList_le hb
      simp only [Bool.and_eq_true, decide_eq_true_eq, not_and]
      omega
    rw [e1, e2]
    simp only [listMax, listMin]
    omega
  have hne : ¬ text.isEmpty = true := by
    cases text
    · simp at h4
    · simp
  unfold chunk_text_for_rag
  rw [if_neg hne]
  simp only [chunkLoop]
  rw [if_pos h4, hnb]
  rw [if_neg (by omega : ¬ text.length ≤ 0)]
  rw [if_pos (le_refl text.length)]
  simp [sliceList]

/-- Witness for C7 at a concrete short input. -/
theorem c7_degenerate_inputs_witness :
    chunk_text_for_rag (strL "ab") 3 3 3 0 true = [strL "ab"] :=
  c7_degenerate_inputs.2 _ 3 3 3 0 true (by decide) (by decide) (by decide)
    (by decide) (by decide)

theorem breakpoint_char_cases {text : List Char} {b : Nat}
    (h : isBreakpoint text b = true) :
    b = 0 ∨ b = text.length ∨
      text[b-1]? = some '\n' ∨ text[b-1]? = some ';' ∨
      text[b-1]? = some '.' ∨ text[b-1]? = some ':' := by
  simp only [isBreakpoint, Bool.or_eq_true, decide_eq_true_eq] at h
  rcases h with (((h | h) | h) | h) | h
  · exact Or.inl h
  · exact Or.inr (Or.inl h)
  · simp only [nlRunEnd, Bool.and_eq_true, charIs, beq_iff_eq] at h
    exact Or.inr (Or.inr (Or.inl h.1.1.2))
  · simp only [lineStartBreak, Bool.and_eq_true, charIs, beq_iff_eq] at h
    exact Or.inr (Or.inr (Or.inl h.1.2))
  · simp only [punctBreak, Bool.and_eq_true, Bool.or_eq_true, charIs,
      beq_iff_eq] at h
    rcases h.1.1.2 with (hc | hc) | hc
    · exact Or.inr (Or.inr (Or.inr (Or.inl hc)))
    · exact Or.inr (Or.inr (Or.inr (Or.inr (Or.inl hc))))
    · exact Or.inr (Or.inr (Or.inr (Or.inr (Or.inr hc))))

/-- Claim C5: for every text containing the bearing token `N 45°30'15" E`
immediately followed by `.` and more text, no breakpoint built by
`chunk_text_for_rag` falls strictly inside the token (in particular none
falls immediately after the internal `°`, `'` or `"` marks): `0` and
`text.length` lie outside the token, paragraph-end and line-start
breakpoints need a newline at the previous offset, punctuation breakpoints
need `;`/`.`/`:` there, and no character of the token qualifies. -/
theorem c5_no_breakpoint_inside_bearing (text : List Char) (s : Nat)
    (h1 : (text.drop s).take 13 = strL "N 45°30'15\" E")
    (h2 : text[s + 13]? = some '.')
    (h3 : s + 14 < text.length) :
    (breaksList text).filter
      (fun b => decide (s < b) && decide (b < s + 13)) = [] := by
  rw [List.filter_eq_nil_iff]
  intro b hb hcond
  simp only [Bool.and_eq_true, decide_eq_true_eq] at hcond
  obtain ⟨hsb, hbs⟩ := hcond
  have hlen : s + 13 ≤ text.length := by
    have hl := congrArg List.length h1
    simp only [List.length_take, List.length_drop] at hl
    have : (strL "N 45°30'15\" E").length = 13 := by decide
    omega
  have hchar : ∀ k, k < 13 → text[s + k]? = (strL "N 45°30'15\" E")[k]? := by
    intro k hk
    have := congrArg (fun l => l[k]?) h1
    simpa [List.getElem?_take, hk, List.getElem?_drop] using this
  have hno : ∀ k, k < 12 →
      (strL "N 45°30'15\" E")[k]? ≠ some '\n' ∧
      (strL "N 45°30'15\" E")[k]? ≠ some ';' ∧
      (strL "N 45°30'15\" E")[k]? ≠ some '.' ∧
      (strL "N 45°30'15\" E")[k]? ≠ some ':' := by decide
  have hbk : isBreakpoint text b = true := (List.mem_filter.mp hb).2
  have hk12 : b - 1 - s < 12 := by omega
  have heq : b - 1 = s + (b - 1 - s) := by omega
  have hcc := hchar (b - 1 - s) (by omega)
  have hn := hno (b - 1 - s) hk12
  rcases breakpoint_char_cases hbk with h | h | h | h | h | h
  · omega
  · omega
  · exact hn.1 (by rw [← hcc, ← heq]; exact h)
  · exact hn.2.1 (by rw [← hcc, ← heq]; exact h)
  · exact hn.2.2.1 (by rw [← hcc, ← heq]; exact h)
  · exact hn.2.2.2 (by rw [← hcc, ← heq]; exact h)

/-- Witness for C5: the token at offset 0 of a concrete text. -/
theorem c5_no_breakpoint_inside_bearing_witness :
    (breaksList (strL "N 45°30'15\" E. and more")).filter
      (fun b => decide (0 < b) && decide (b < 0 + 13)) = [] :=
  c5_no_breakpoint_inside_bearing (strL "N 45°30'15\" E. and more") 0
    (by decide) (by decide) (by decide)

theorem dedup_const {l : List Nat} {T : Nat} (hne : l ≠ [])
    (h : ∀ x ∈ l, x = T) : l.dedup = [T] := by
  induction l with
  | nil => exact absurd rfl hne
  | cons a l ih =>
    have ha : a = T := h a (List.mem_cons_self a l)
    subst ha
    cases l with
    | nil => simp
    | cons b l' =>
      have hb : b = a := (h b (by simp)).trans rfl
      have : a ∈ b :: l' := by rw [hb]; exact List.mem_cons_self a l'
      rw [List.dedup_cons_of_mem this]
      exact ih (by simp) (fun x hx => h x (List.mem_cons_of_mem a hx))

theorem foldl_append_singleton {α β : Type} (f : α → β)
    (l : List α) (init : List β) :
    l.foldl (fun acc e => acc ++ [f e]) init = init ++ l.map f := by
  induction l generalizing init with
  | nil => simp
  | cons a l ih => simp [ih]

theorem buildPieces_no_ensure (sorted : List SegEntry) :
    buildPieces sorted false = sorted.map (fun e => e.2.2) := by
  unfold buildPieces
  simp only [Bool.false_and, Bool.if_false_left]
  have := foldl_append_singleton (fun e : SegEntry => e.2.2) sorted []
  simpa using this

/-- Claim C8: for a non-empty group whose members all declare total `T`,
with some index in `1..T` missing: `allow_partial = false` yields no output
(`none`), while `allow_partial = true` (with no newline normalization)
concatenates exactly the present segments sorted by ascending index — the
sorted entry list is a permutation of the group with weakly increasing
indices. -/
theorem c8_partial_group_policy (entries : List SegEntry) (T : Nat)
    (nl : Bool) (hne : entries ≠ [])
    (hT : ∀ e ∈ entries, e.2.1 = T)
    (hmiss : ∃ k, 1 ≤ k ∧ k ≤ T ∧ k ∉ entries.map (fun e => e.1)) :
    mergeGroup entries false nl = none ∧
    mergeGroup entries true false =
      some ((List.insertionSort (fun a b : SegEntry => a.1 ≤ b.1)
        entries).map (fun e => e.2.2)).flatten ∧
    List.Sorted (· ≤ ·)
      ((List.insertionSort (fun a b : SegEntry => a.1 ≤ b.1) entries).map
        (fun e => e.1)) ∧
    (List.insertionSort (fun a b : SegEntry => a.1 ≤ b.1) entries).Perm
      entries := by
  have hmapne : entries.map (fun e => e.2.1) ≠ [] := by
    cases entries
    · exact absurd rfl hne
    · simp
  have hdedup : (entries.map (fun e => e.2.1)).dedup = [T] := by
    apply dedup_const hmapne
    intro x hx
    obtain ⟨e, he, hex⟩ := List.mem_map.mp hx
    exact hex ▸ hT e he
  obtain ⟨k, hk1, hk2, hk3⟩ := hmiss
  have hkmem : k ∈ (List.range' 1 T).filter
      (fun i => !(entries.map (fun e => e.1)).contains i) := by
    apply List.mem_filter.mpr
    refine ⟨List.mem_range'_1.mpr ⟨hk1, by omega⟩, ?_⟩
    have hcf : (entries.map (fun e => e.1)).contains k = false := by
      rw [← Bool.not_eq_true]
      intro hc
      exact hk3 (List.elem_iff.mp hc)
    show (!(entries.map (fun e => e.1)).contains k) = true
    rw [hcf]
    rfl
  have hmissEmpty : ((List.range' 1 T).filter
      (fun i => !(entries.map (fun e => e.1)).contains i)).isEmpty = false := by
    rcases he : ((List.range' 1 T).filter
        (fun i => !(entries.map (fun e => e.1)).contains i)) with _ | ⟨a, l⟩
    · rw [he] at hkmem; simp at hkmem
    · rw [he]; rfl
  haveI : IsTotal SegEntry (fun a b : SegEntry => a.1 ≤ b.1) :=
    ⟨fun a b => Nat.le_total a.1 b.1⟩
  haveI : IsTrans SegEntry (fun a b : SegEntry => a.1 ≤ b.1) :=
    ⟨fun _ _ _ hab hbc => Nat.le_trans hab hbc⟩
  refine ⟨?_, ?_, ?_, List.perm_insertionSort _ _⟩
  · simp only [mergeGroup, hdedup, List.headD_cons]
    simp only [hmissEmpty]
    simp
  · simp only [mergeGroup, hdedup, List.headD_cons]
    simp [buildPieces_no_ensure]
  · have hs := List.sorted_insertionSort
      (fun a b : SegEntry => a.1 ≤ b.1) entries
    exact (List.pairwise_map).mpr hs

/-- Witness for C8: the parts `{1_of_3, 3_of_3}` with part 2 missing. -/
theorem c8_partial_group_policy_witness :
    mergeGroup [(3, 3, strL "B"), (1, 3, strL "A")] false true = none ∧
    mergeGroup [(3, 3, strL "B"), (1, 3, strL "A")] true false =
      some (strL "AB") := by
  have h := c8_partial_group_policy [(3, 3, strL "B"), (1, 3, strL "A")] 3
    true (by decide) (by decide) ⟨2, by decide, by decide, by decide⟩
  exact ⟨h.1, h.2.1.trans (by decide)⟩

/-- Claim C9: a group whose members declare two or more distinct totals is
rejected entirely — `mergeGroup` returns `none`, so no output is produced
for it and it is not partially processed — while every other group in the
batch is processed exactly as if the bad group were absent. -/
theorem c9_inconsistent_totals_rejected (es : List SegEntry)
    (key : List Char × List Char)
    (gs1 gs2 : List ((List Char × List Char) × List SegEntry))
    (ap nl : Bool)
    (h : 2 ≤ ((es.map (fun e => e.2.1)).dedup).length) :
    mergeGroup es ap nl = none ∧
    processGroups (gs1 ++ (key, es) :: gs2) ap nl =
      processGroups gs1 ap nl ++ processGroups gs2 ap nl := by
  have h1 : mergeGroup es ap nl = none := by
    simp only [mergeGroup]
    rw [if_pos]
    omega
  refine ⟨h1, ?_⟩
  simp only [processGroups, List.filterMap_append, List.filterMap_cons, h1,
    Option.map_none']

/-- Witness for C9: a group with totals `{2, 3}` next to a healthy group. -/
theorem c9_inconsistent_totals_rejected_witness :
    mergeGroup [(1, 2, strL "a"), (2, 3, strL "b")] false false = none ∧
    processGroups [((strL "", strL "x"), [(1, 2, strL "a"), (2, 3, strL "b")]),
        ((strL "", strL "y"), [(1, 1, strL "c")])] false false =
      processGroups [] false false ++
        processGroups [((strL "", strL "y"), [(1, 1, strL "c")])] false false :=
  c9_inconsistent_totals_rejected [(1, 2, strL "a"), (2, 3, strL "b")]
    (strL "", strL "x") []
    [((strL "", strL "y"), [(1, 1, strL "c")])] false false (by decide)

theorem joinParas_cons (a : List Char) (S : List (List Char)) (h : S ≠ []) :
    joinParas (a :: S) = a ++ nn ++ joinParas S := by
  cases S with
  | nil => exact absurd rfl h
  | cons b T => rfl

theorem splitNN_ne_nil : ∀ (l acc : List Char), splitNN l acc ≠ []
  | [], acc => by simp [splitNN]
  | [c], acc => by simp [splitNN]
  | c1 :: c2 :: rest, acc => by
    simp only [splitNN]
    split
    · simp
    · exact splitNN_ne_nil (c2 :: rest) (c1 :: acc)

theorem splitNN_join : ∀ (l acc : List Char),
    joinParas (splitNN l acc) = acc.reverse ++ l
  | [], acc => by simp [splitNN, joinParas]
  | [c], acc => by simp [splitNN, joinParas]
  | c1 :: c2 :: rest, acc => by
    simp only [splitNN]
    split
    · next hc =>
      obtain ⟨h1, h2⟩ := hc
      subst h1; subst h2
      rw [joinParas_cons _ _ (splitNN_ne_nil rest [])]
      rw [splitNN_join rest []]
      simp [nn]
    · rw [splitNN_join (c2 :: rest) (c1 :: acc)]
      simp

theorem joinParas_append (A B : List (List Char)) (hA : A ≠ []) (hB : B ≠ []) :
    joinParas (A ++ B) = joinParas A ++ nn ++ joinParas B := by
  induction A with
  | nil => exact absurd rfl hA
  | cons a A ih =>
    cases A with
    | nil =>
      rw [List.singleton_append, joinParas_cons _ _ hB]
      rfl
    | cons a2 A2 =>
      rw [List.cons_append, joinParas_cons _ _ (by simp),
        joinParas_cons _ _ (by simp), ih (by simp)]
      simp

theorem joinParas_merge (xs : List (List Char)) (a b : List Char) :
    joinParas (xs ++ [a ++ nn ++ b]) = joinParas (xs ++ [a, b]) := by
  induction xs with
  | nil => simp [joinParas]
  | cons x xs ih =>
    rw [List.cons_append, joinParas_cons _ _ (by simp),
      List.cons_append, joinParas_cons _ _ (by simp), ih]

theorem joinParas_mergeIntoLast (chs : List (List Char)) (x : List Char) :
    joinParas (mergeIntoLast chs nn x) = joinParas (chs ++ [x]) := by
  unfold mergeIntoLast
  match hc : chs.getLast? with
  | none =>
    rfl
  | some prev =>
    have hne : chs ≠ [] := by
      intro h; subst h; simp at hc
    have hsplit : chs.dropLast ++ [prev] = chs := by
      have h1 : chs.getLast hne = prev := by
        have h2 := List.getLast?_eq_getLast chs hne
        rw [hc] at h2
        exact (Option.some_inj.mp h2).symm
      rw [← h1]
      exact List.dropLast_append_getLast hne
    calc joinParas (chs.dropLast ++ [prev ++ nn ++ x])
        = joinParas (chs.dropLast ++ [prev, x]) := joinParas_merge _ _ _
      _ = joinParas ((chs.dropLast ++ [prev]) ++ [x]) := by simp
      _ = joinParas (chs ++ [x]) := by rw [hsplit]

theorem smmStep_content (mn mx : Nat) (chunks parts : List (List Char))
    (para : List Char) (h : para.length + 2 ≤ mx) :
    stContent (smmStep mn mx (chunks, parts) para) ≠ [] ∧
    joinParas (stContent (smmStep mn mx (chunks, parts) para)) =
      joinParas (stContent (chunks, parts) ++ [para]) := by
  by_cases hp : parts = []
  · subst hp
    have hstep : smmStep mn mx (chunks, []) para = (chunks, [para]) := by
      simp only [smmStep, List.isEmpty_nil, if_true, List.flatten_nil,
        List.length_nil, List.nil_append]
      rw [if_neg (by omega), if_pos (by omega)]
    rw [hstep]
    simp [stContent]
  · have hpe : parts.isEmpty = false := by
      cases parts
      · exact absurd rfl hp
      · rfl
    have hLflat : joinParas (chunks ++ [parts.flatten ++ (nn ++ para)]) =
        joinParas ((chunks ++ [parts.flatten]) ++ [para]) := by
      have h1 : parts.flatten ++ (nn ++ para) = parts.flatten ++ nn ++ para := by
        simp
      rw [h1, joinParas_merge]
      have h2 : chunks ++ [parts.flatten, para] =
          (chunks ++ [parts.flatten]) ++ [para] := by simp
      rw [h2]
    by_cases hcand : parts.flatten.length + nn.length + para.length ≤ mx
    · have hstep : smmStep mn mx (chunks, parts) para =
          (chunks, parts ++ [nn ++ para]) := by
        simp only [smmStep, hpe, Bool.false_eq_true, if_false]
        rw [if_neg (by simp [nn] at *; omega), if_pos hcand]
      rw [hstep]
      refine ⟨by simp [stContent], ?_⟩
      simp only [stContent, List.isEmpty_eq_false.mpr (by simp : parts ++ [nn ++ para] ≠ []), if_false,
        List.isEmpty_eq_false.mpr hp, Bool.false_eq_true]
      rw [List.flatten_append]
      simpa using hLflat
    · by_cases hcur : parts.flatten.length < mn
      · have hstep : smmStep mn mx (chunks, parts) para =
            (chunks ++ [(parts ++ [nn ++ para]).flatten], []) := by
          simp only [smmStep, hpe, Bool.false_eq_true, if_false]
          rw [if_neg (by simp [nn] at *; omega), if_neg hcand, if_pos hcur]
        rw [hstep]
        refine ⟨by simp [stContent], ?_⟩
        simp only [stContent, List.isEmpty_nil, if_true, List.append_nil,
          List.isEmpty_eq_false.mpr hp, Bool.false_eq_true, if_false]
        rw [List.flatten_append]
        simpa using hLflat
      · have hstep : smmStep mn mx (chunks, parts) para =
            (chunks ++ [parts.flatten], [para]) := by
          simp only [smmStep, hpe, Bool.false_eq_true, if_false]
          rw [if_neg (by simp [nn] at *; omega), if_neg hcand, if_neg hcur]
        rw [hstep]
        refine ⟨by simp [stContent], ?_⟩
        simp only [stContent, List.isEmpty_eq_false.mpr hp, Bool.false_eq_true,
          if_false]
        simp

theorem smmFold_content (mn mx : Nat) :
    ∀ (R : List (List Char)) (chunks parts : List (List Char)),
      (∀ p ∈ R, p.length + 2 ≤ mx) →
      joinParas (smmFinal mn (R.foldl (smmStep mn mx) (chunks, parts))) =
        joinParas (stContent (chunks, parts) ++ R)
  | [], chunks, parts, _ => by
    simp only [List.foldl_nil, List.append_nil]
    unfold smmFinal stContent
    by_cases hp : parts = []
    · subst hp
      simp
    · have hpe : parts.isEmpty = false := by
        cases parts
        · exact absurd rfl hp
        · rfl
      simp only [hpe, Bool.false_eq_true, if_false]
      by_cases hlen : parts.flatten.length < mn
      · rw [if_pos hlen, joinParas_mergeIntoLast]
      · rw [if_neg hlen]
  | p :: R, chunks, parts, hR => by
    rw [List.foldl_cons]
    have hp := hR p (List.mem_cons_self p R)
    have hstep := smmStep_content mn mx chunks parts p hp
    have hR' : ∀ q ∈ R, q.length + 2 ≤ mx :=
      fun q hq => hR q (List.mem_cons_of_mem p hq)
    have ih := smmFold_content mn mx R (smmStep mn mx (chunks, parts) p).1
      (smmStep mn mx (chunks, parts) p).2 hR'
    rw [ih]
    rcases R with _ | ⟨r, R'⟩
    · simpa using hstep.2
    · rw [joinParas_append _ _ hstep.1 (by simp)]
      rw [hstep.2]
      rw [← joinParas_append _ _ (by simp) (by simp : (r :: R') ≠ [])]
      simp

/-- Claim C3 amended: `split_text_minmax` preserves input order whenever no
paragraph is oversized.  If every `"\n\n"`-paragraph of the text satisfies
`length(p) + 2 ≤ max_chars` (so the oversized-paragraph path of the loop is
never taken), the chunks joined back with `"\n\n"` reproduce the text
exactly — in particular every paragraph's content appears in the output in
input order.  (Without that restriction the property fails: see the
counterexample, where a pending under-minimum buffer is emitted after the
chunks cut from a later oversized paragraph.) -/
theorem c3_order_preservation_amended (text : List Char) (mn mx : Int)
    (h1 : 0 < mn) (h2 : mn ≤ mx)
    (h3 : ∀ p ∈ splitNN text [], (p.length : Int) + 2 ≤ mx) :
    joinParas (split_text_minmax text mn mx) = text := by
  unfold split_text_minmax
  rw [if_neg (by omega : ¬ (mn ≤ 0 ∨ mx ≤ 0))]
  rw [if_neg (by omega : ¬ mx < mn)]
  unfold smmCore
  rw [smmFold_content mn.toNat mx.toNat (splitNN text []) [] []
    (fun p hp => by have := h3 p hp; omega)]
  have : stContent ([], []) = ([] : List (List Char)) := by
    simp [stContent]
  rw [this]
  simpa using splitNN_join text []

/-- Witness for the amended C3 at a concrete two-paragraph input. -/
theorem c3_order_preservation_amended_witness :
    joinParas (split_text_minmax (strL "aa\n\nbb") 1 10) = strL "aa\n\nbb" :=
  c3_order_preservation_amended (strL "aa\n\nbb") 1 10 (by decide) (by decide)
    (by decide)

/-- Counterexample to C3 as stated: with `min_chars = 5`, `max_chars = 10`,
the first paragraph `"ab"` is pending and below the minimum when the
oversized second paragraph arrives, so the loop does not flush it; the
chunks cut from the later paragraph are emitted first, and `"ab"` surfaces
only inside the final chunk — the content of paragraph 0 appears after the
content of paragraph 1, violating order preservation. -/
theorem c3_order_preservation_counterexample :
    splitNN (strL "ab\n\nXXXXXXXXXXXXXXXXXXXX\n\ncdefgh") [] =
      [strL "ab", strL "XXXXXXXXXXXXXXXXXXXX", strL "cdefgh"] ∧
    split_text_minmax (strL "ab\n\nXXXXXXXXXXXXXXXXXXXX\n\ncdefgh") 5 10 =
      [strL "XXXXXXXXXXXXXXXXXXXX", strL "ab\n\ncdefgh"] := by
  decide
